import Mathlib

set_option maxRecDepth 10000

/-!
Verification of the `sanitize-filename` library (`src/lib.rs`).

Strings are modelled as `List Char` (Rust `str` is a sequence of Unicode
scalar values).  Rust's `str::len` is the UTF-8 byte length, modelled by
`byteLen`; `str::is_char_boundary` is modelled by `isCharBoundary`, and the
backwards boundary search in the truncation step by `floorBoundary`.
-/

namespace SanitizeFilename

/-- UTF-8 encoded size in bytes of one Unicode scalar value
(Rust `char::len_utf8`). -/
def utf8Len (c : Char) : Nat :=
  if c.toNat < 0x80 then 1
  else if c.toNat < 0x800 then 2
  else if c.toNat < 0x10000 then 3
  else 4

/-- UTF-8 byte length of a string (Rust `str::len`). -/
def byteLen (s : List Char) : Nat :=
  (s.map utf8Len).sum

/-- `is_illegal_char` from `src/lib.rs`. -/
def is_illegal_char (c : Char) : Bool :=
  c == '/' || c == '?' || c == '<' || c == '>' || c == '\\' || c == ':' ||
    c == '*' || c == '|' || c == '\"'

/-- `is_control_char` from `src/lib.rs`: code in `[0,0x1f]` or `[0x80,0x9f]`. -/
def is_control_char (c : Char) : Bool :=
  decide (c.toNat ≤ 0x1f) || (decide (0x80 ≤ c.toNat) && decide (c.toNat ≤ 0x9f))

/-- The loop body of `replace_illegal_or_control_char` from `src/lib.rs`:
`res` is the `Option<String>` accumulator (`None` until the first
illegal/control character is met, at which point it is seeded with the clean
prefix read so far followed by the replacement), `pre` is the portion of the
original string already consumed (Rust recovers it as `&name[..i]`). -/
def replaceAux (repl : List Char) : List Char → Option (List Char) → List Char → List Char
  | [], res, pre => res.getD pre
  | ch :: rest, res, pre =>
    if is_illegal_char ch || is_control_char ch then
      match res with
      | none => replaceAux repl rest (some (pre ++ repl)) (pre ++ [ch])
      | some acc => replaceAux repl rest (some (acc ++ repl)) (pre ++ [ch])
    else
      match res with
      | none => replaceAux repl rest none (pre ++ [ch])
      | some acc => replaceAux repl rest (some (acc ++ [ch])) (pre ++ [ch])

/-- `replace_illegal_or_control_char` from `src/lib.rs`. -/
def replace_illegal_or_control_char (name repl : List Char) : List Char :=
  replaceAux repl name none []

/-- The per-character description of the filter from the spec (§4.2):
every illegal or control character independently becomes one copy of the
replacement text, other characters are kept; the replacement is spliced in
verbatim, never re-filtered. -/
def replaceIllegalOrControlCharSpec (name repl : List Char) : List Char :=
  match name with
  | [] => []
  | c :: cs =>
      (if is_illegal_char c || is_control_char c then repl else [c]) ++
        replaceIllegalOrControlCharSpec cs repl

/-- `is_reserved` from `src/lib.rs`: non-empty and all characters are `'.'`. -/
def is_reserved (name : List Char) : Bool :=
  if name.isEmpty then false
  else name.all (fun c => c == '.')

/-- `WINDOWS_RESERVED` from `src/lib.rs`. -/
def WINDOWS_RESERVED : List (List Char) :=
  ["con".toList, "prn".toList, "aux".toList, "nul".toList,
   "com0".toList, "com1".toList, "com2".toList, "com3".toList, "com4".toList,
   "com5".toList, "com6".toList, "com7".toList, "com8".toList, "com9".toList,
   "lpt0".toList, "lpt1".toList, "lpt2".toList, "lpt3".toList, "lpt4".toList,
   "lpt5".toList, "lpt6".toList, "lpt7".toList, "lpt8".toList, "lpt9".toList]

/-- Rust `u8::to_ascii_lowercase`, lifted to scalar values: only the ASCII
letters `A`-`Z` are lowered (UTF-8 bytes `0x80` and above are never ASCII
uppercase, so byte-wise and scalar-wise lowering agree). -/
def to_ascii_lowercase (c : Char) : Char :=
  if 'A' ≤ c ∧ c ≤ 'Z' then Char.ofNat (c.toNat + 32) else c

/-- Rust `str::eq_ignore_ascii_case`. -/
def eq_ignore_ascii_case (a b : List Char) : Bool :=
  a.map to_ascii_lowercase == b.map to_ascii_lowercase

/-- `is_windows_reserved` from `src/lib.rs`: the portion before the first
`'.'` (`split_once`), or the whole name when there is no `'.'`, equals one of
the reserved stems ASCII-case-insensitively. -/
def is_windows_reserved (name : List Char) : Bool :=
  if name.isEmpty then false
  else
    let base := name.takeWhile (fun c => c != '.')
    WINDOWS_RESERVED.any (fun r => eq_ignore_ascii_case base r)

/-- `has_windows_trailing` from `src/lib.rs`: the last character is `'.'`
or `' '`. -/
def has_windows_trailing (name : List Char) : Bool :=
  match name.getLast? with
  | some c => c == '.' || c == ' '
  | none => false

/-- Rust `str::trim_end_matches([' ', '.'])`: remove the maximal trailing run
of dots and spaces. -/
def trimEndDotSpace (name : List Char) : List Char :=
  (name.reverse.dropWhile (fun c => c == '.' || c == ' ')).reverse

/-- `replace_windows_trailing` from `src/lib.rs`. -/
def replace_windows_trailing (name repl : List Char) : List Char :=
  let trimmed := trimEndDotSpace name
  if byteLen trimmed = byteLen name then name
  else if trimmed.isEmpty then repl
  else trimmed ++ repl

/-- `Options` from `src/lib.rs`. -/
structure Options where
  windows : Bool
  truncate : Bool
  replacement : List Char

/-- `OptionsForCheck` from `src/lib.rs`. -/
structure OptionsForCheck where
  windows : Bool
  truncate : Bool

/-- Rust `str::is_char_boundary`: `n` is `0`, or splits the UTF-8 encoding
between two scalar values (indices past the end are not boundaries). -/
def isCharBoundary : List Char → Nat → Bool
  | _, 0 => true
  | [], _ + 1 => false
  | c :: cs, n + 1 =>
      if utf8Len c ≤ n + 1 then isCharBoundary cs (n + 1 - utf8Len c) else false

/-- The backwards boundary search of the truncation step in
`sanitize_with_options` (`let mut end = 255; while !name.is_char_boundary(end)
{ end -= 1; }`): the largest char boundary that is at most `b`. -/
def floorBoundary (s : List Char) : Nat → Nat
  | 0 => 0
  | b + 1 => if isCharBoundary s (b + 1) = true then b + 1 else floorBoundary s b

/-- Rust byte slicing `&name[..n]` followed by `String::truncate` semantics:
the characters of `s` whose UTF-8 encoding fits entirely within the first `n`
bytes. -/
def takeBytes : List Char → Nat → List Char
  | _, 0 => []
  | [], _ + 1 => []
  | c :: cs, n + 1 =>
      if utf8Len c ≤ n + 1 then c :: takeBytes cs (n + 1 - utf8Len c) else []

/-- The value `name` holds in `sanitize_with_options` (`src/lib.rs`) just
before the truncation step: filter, all-dots check, and (in windows mode)
trailing trim followed by the reserved-device-name check. -/
def preTruncate (o : Options) (name : List Char) : List Char :=
  let name1 := replace_illegal_or_control_char name o.replacement
  let name2 := if is_reserved name1 = true then o.replacement else name1
  if o.windows = true then
    let name3 := replace_windows_trailing name2 o.replacement
    if is_windows_reserved name3 = true then o.replacement else name3
  else name2

/-- `sanitize_with_options` from `src/lib.rs`. -/
def sanitize_with_options (o : Options) (name : List Char) : List Char :=
  let name3 := preTruncate o name
  if o.truncate = true ∧ 255 < byteLen name3 then
    takeBytes name3 (floorBoundary name3 255)
  else name3

/-- `is_sanitized_with_options` from `src/lib.rs`. -/
def is_sanitized_with_options (c : OptionsForCheck) (name : List Char) : Bool :=
  if name.isEmpty then true
  else if c.truncate = true ∧ 255 < byteLen name then false
  else if is_reserved name = true then false
  else if c.windows = true ∧ is_windows_reserved name = true then false
  else if c.windows = true ∧ has_windows_trailing name = true then false
  else if name.any (fun ch => is_illegal_char ch || is_control_char ch) then false
  else true

/-! ### Byte-length lemmas -/

theorem utf8Len_pos (c : Char) : 1 ≤ utf8Len c := by
  unfold utf8Len
  split
  · omega
  split
  · omega
  split
  · omega
  · omega

theorem byteLen_nil : byteLen ([] : List Char) = 0 := rfl

theorem byteLen_cons (c : Char) (s : List Char) :
    byteLen (c :: s) = utf8Len c + byteLen s := by
  simp [byteLen]

theorem byteLen_append (a b : List Char) :
    byteLen (a ++ b) = byteLen a + byteLen b := by
  simp [byteLen]

theorem eq_nil_of_byteLen (s : List Char) (h : byteLen s = 0) : s = [] := by
  cases s with
  | nil => rfl
  | cons c cs =>
    have := utf8Len_pos c
    rw [byteLen_cons] at h
    omega

theorem byteLen_pos (s : List Char) (h : s ≠ []) : 0 < byteLen s := by
  cases s with
  | nil => exact absurd rfl h
  | cons c cs =>
    have := utf8Len_pos c
    rw [byteLen_cons]
    omega

theorem byteLen_reverse (s : List Char) : byteLen s.reverse = byteLen s := by
  simp [byteLen, List.sum_reverse]

theorem byteLen_filter_le (p : Char → Bool) (s : List Char) :
    byteLen (s.filter p) ≤ byteLen s := by
  induction s with
  | nil => simp
  | cons c cs ih =>
    cases hp : p c
    · rw [List.filter_cons, if_neg (by simp [hp]), byteLen_cons]
      have := utf8Len_pos c
      omega
    · rw [List.filter_cons, if_pos (by simp [hp]), byteLen_cons, byteLen_cons]
      omega

theorem filter_eq_of_byteLen (p : Char → Bool) (s : List Char)
    (h : byteLen (s.filter p) = byteLen s) : s.filter p = s := by
  induction s with
  | nil => rfl
  | cons c cs ih =>
    cases hp : p c
    · rw [List.filter_cons, if_neg (by simp [hp])] at h
      have h1 := byteLen_filter_le p cs
      have h2 := utf8Len_pos c
      rw [byteLen_cons] at h
      omega
    · rw [List.filter_cons, if_pos (by simp [hp])] at h ⊢
      rw [byteLen_cons, byteLen_cons] at h
      rw [ih (by omega)]

theorem byteLen_dropWhile_le (p : Char → Bool) (s : List Char) :
    byteLen (s.dropWhile p) ≤ byteLen s := by
  induction s with
  | nil => simp [List.dropWhile]
  | cons c cs ih =>
    cases hp : p c
    · rw [List.dropWhile_cons, if_neg (by simp [hp])]
    · rw [List.dropWhile_cons, if_pos (by simp [hp]), byteLen_cons]
      have := utf8Len_pos c
      omega

theorem dropWhile_head_false (p : Char → Bool) (s : List Char) (c : Char) (cs : List Char)
    (h : s.dropWhile p = c :: cs) : p c = false := by
  induction s with
  | nil => simp [List.dropWhile] at h
  | cons a as ih =>
    cases hp : p a
    · rw [List.dropWhile_cons, if_neg (by simp [hp])] at h
      cases h
      exact hp
    · rw [List.dropWhile_cons, if_pos (by simp [hp])] at h
      exact ih h

/-! ### Character-filter lemmas -/

theorem replaceAux_some (repl : List Char) (rem : List Char) :
    ∀ acc pre : List Char,
      replaceAux repl rem (some acc) pre =
        acc ++ replaceIllegalOrControlCharSpec rem repl := by
  induction rem with
  | nil => intro acc pre; simp [replaceAux, replaceIllegalOrControlCharSpec]
  | cons ch rest ih =>
    intro acc pre
    cases h : is_illegal_char ch || is_control_char ch
    · simp [replaceAux, replaceIllegalOrControlCharSpec, h, ih]
    · simp [replaceAux, replaceIllegalOrControlCharSpec, h, ih]

theorem replaceAux_none (repl : List Char) (rem : List Char) :
    ∀ pre : List Char,
      replaceAux repl rem none pre =
        pre ++ replaceIllegalOrControlCharSpec rem repl := by
  induction rem with
  | nil => intro pre; simp [replaceAux, replaceIllegalOrControlCharSpec]
  | cons ch rest ih =>
    intro pre
    cases h : is_illegal_char ch || is_control_char ch
    · simp [replaceAux, replaceIllegalOrControlCharSpec, h, ih]
    · simp [replaceAux, replaceIllegalOrControlCharSpec, h, replaceAux_some]

theorem replace_eq_spec (name repl : List Char) :
    replace_illegal_or_control_char name repl =
      replaceIllegalOrControlCharSpec name repl := by
  rw [replace_illegal_or_control_char, replaceAux_none]
  simp

theorem spec_eq_self (name repl : List Char)
    (h : ∀ c ∈ name, (is_illegal_char c || is_control_char c) = false) :
    replaceIllegalOrControlCharSpec name repl = name := by
  induction name with
  | nil => rfl
  | cons c cs ih =>
    have hc := h c (List.mem_cons_self c cs)
    simp [replaceIllegalOrControlCharSpec, hc,
      ih (fun x hx => h x (List.mem_cons_of_mem _ hx))]

theorem spec_nil_eq_filter (name : List Char) :
    replaceIllegalOrControlCharSpec name [] =
      name.filter (fun c => !(is_illegal_char c || is_control_char c)) := by
  induction name with
  | nil => rfl
  | cons c cs ih =>
    cases h : is_illegal_char c || is_control_char c
    · obtain ⟨h1, h2⟩ := Bool.or_eq_false_iff.mp h
      simp [replaceIllegalOrControlCharSpec, h, List.filter_cons, ih, h1, h2]
    · rcases Bool.or_eq_true_iff.mp h with h1 | h1 <;>
        simp [replaceIllegalOrControlCharSpec, h, List.filter_cons, ih, h1]

/-! ### Trailing-trim lemmas -/

theorem trimEnd_spec (s : List Char) :
    ∃ u, trimEndDotSpace s ++ u = s ∧ ∀ c ∈ u, (c == '.' || c == ' ') = true := by
  refine ⟨(s.reverse.takeWhile (fun c => c == '.' || c == ' ')).reverse, ?_, ?_⟩
  · rw [trimEndDotSpace, ← List.reverse_append, List.takeWhile_append_dropWhile,
      List.reverse_reverse]
  · intro c hc
    rw [List.mem_reverse] at hc
    exact List.mem_takeWhile_imp (p := fun c => c == '.' || c == ' ') hc

theorem byteLen_trimEnd_le (s : List Char) :
    byteLen (trimEndDotSpace s) ≤ byteLen s := by
  obtain ⟨u, hu, _⟩ := trimEnd_spec s
  have h := congrArg byteLen hu
  rw [byteLen_append] at h
  omega

theorem trimEnd_eq_of_not_trailing (s : List Char)
    (h : has_windows_trailing s = false) : trimEndDotSpace s = s := by
  rw [trimEndDotSpace]
  cases hr : s.reverse with
  | nil =>
    have : s = [] := by simpa using congrArg List.reverse hr
    simp [this]
  | cons c rest =>
    have hlast : s.getLast? = some c := by
      rw [← List.head?_reverse, hr]
      rfl
    unfold has_windows_trailing at h
    rw [hlast] at h
    have h' : (c == '.' || c == ' ') = false := h
    rw [List.dropWhile_cons, if_neg (by simp [h']), ← hr, List.reverse_reverse]

theorem byteLen_trimEnd_lt (s : List Char) (h : has_windows_trailing s = true) :
    byteLen (trimEndDotSpace s) < byteLen s := by
  cases hr : s.reverse with
  | nil =>
    have : s = [] := by simpa using congrArg List.reverse hr
    subst this
    simp [has_windows_trailing] at h
  | cons c rest =>
    have hlast : s.getLast? = some c := by
      rw [← List.head?_reverse, hr]
      rfl
    unfold has_windows_trailing at h
    rw [hlast] at h
    have h' : (c == '.' || c == ' ') = true := h
    rw [trimEndDotSpace, hr, List.dropWhile_cons, if_pos (by simp at h' ⊢; exact h')]
    have h1 := byteLen_dropWhile_le (fun c => c == '.' || c == ' ') rest
    have h2 : byteLen s = utf8Len c + byteLen rest := by
      rw [← byteLen_reverse s, hr, byteLen_cons]
    have h3 := byteLen_reverse (rest.dropWhile (fun c => c == '.' || c == ' '))
    have := utf8Len_pos c
    omega

theorem trimEnd_not_trailing (s : List Char) :
    has_windows_trailing (trimEndDotSpace s) = false := by
  rw [trimEndDotSpace]
  cases hd : s.reverse.dropWhile (fun c => c == '.' || c == ' ') with
  | nil => rfl
  | cons c rest =>
    have hc := dropWhile_head_false _ _ _ _ hd
    unfold has_windows_trailing
    have hlast : (c :: rest).reverse.getLast? = some c := by
      rw [List.getLast?_reverse]
      rfl
    rw [hlast]
    exact hc

theorem rwt_nil (s : List Char) :
    replace_windows_trailing s [] = trimEndDotSpace s := by
  rw [replace_windows_trailing]
  obtain ⟨u, hu, _⟩ := trimEnd_spec s
  by_cases h : byteLen (trimEndDotSpace s) = byteLen s
  · rw [if_pos h]
    have hc := congrArg byteLen hu
    rw [byteLen_append] at hc
    have : u = [] := eq_nil_of_byteLen u (by omega)
    rw [this, List.append_nil] at hu
    exact hu.symm
  · rw [if_neg h]
    by_cases h2 : (trimEndDotSpace s).isEmpty = true
    · rw [if_pos h2]
      rw [List.isEmpty_iff] at h2
      exact h2.symm
    · rw [if_neg h2, List.append_nil]

/-! ### Boundary and truncation lemmas -/

theorem isCharBoundary_zero (s : List Char) : isCharBoundary s 0 = true := by
  cases s <;> rfl

theorem isCharBoundary_cons (c : Char) (cs : List Char) (n : Nat)
    (h1 : utf8Len c ≤ n) (h2 : isCharBoundary cs (n - utf8Len c) = true) :
    isCharBoundary (c :: cs) n = true := by
  cases n with
  | zero => exact isCharBoundary_zero _
  | succ m =>
    rw [isCharBoundary, if_pos h1]
    exact h2

theorem floorBoundary_le (s : List Char) (b : Nat) : floorBoundary s b ≤ b := by
  induction b with
  | zero => rw [floorBoundary]
  | succ m ih =>
    rw [floorBoundary]
    split
    · exact Nat.le_refl _
    · exact Nat.le_trans ih (Nat.le_succ m)

theorem floorBoundary_boundary (s : List Char) (b : Nat) :
    isCharBoundary s (floorBoundary s b) = true := by
  induction b with
  | zero => rw [floorBoundary]; exact isCharBoundary_zero s
  | succ m ih =>
    rw [floorBoundary]
    split
    · next h => exact h
    · exact ih

theorem floorBoundary_ge (s : List Char) (b m : Nat)
    (hm : m ≤ b) (hb : isCharBoundary s m = true) : m ≤ floorBoundary s b := by
  induction b with
  | zero => rw [floorBoundary]; omega
  | succ k ih =>
    rw [floorBoundary]
    split
    · omega
    · next h =>
      have hne : m ≠ k + 1 := by
        intro e
        subst e
        exact h hb
      exact ih (by omega)

theorem takeBytes_spec (s : List Char) :
    ∀ n, isCharBoundary s n = true →
      byteLen (takeBytes s n) = n ∧ ∃ u, takeBytes s n ++ u = s := by
  induction s with
  | nil =>
    intro n h
    cases n with
    | zero => exact ⟨rfl, [], rfl⟩
    | succ m => rw [isCharBoundary] at h; cases h
  | cons c cs ih =>
    intro n h
    cases n with
    | zero => exact ⟨rfl, c :: cs, rfl⟩
    | succ m =>
      rw [isCharBoundary] at h
      by_cases hle : utf8Len c ≤ m + 1
      · rw [if_pos hle] at h
        obtain ⟨hb, u, hu⟩ := ih (m + 1 - utf8Len c) h
        rw [takeBytes, if_pos hle]
        refine ⟨?_, u, ?_⟩
        · rw [byteLen_cons, hb]; omega
        · rw [List.cons_append, hu]
      · rw [if_neg hle] at h; cases h

theorem boundary_of_append (p : List Char) :
    ∀ u s : List Char, p ++ u = s → isCharBoundary s (byteLen p) = true := by
  induction p with
  | nil =>
    intro u s h
    rw [byteLen_nil]
    exact isCharBoundary_zero s
  | cons c p' ih =>
    intro u s h
    subst h
    rw [byteLen_cons]
    apply isCharBoundary_cons
    · omega
    · have he : utf8Len c + byteLen p' - utf8Len c = byteLen p' := by omega
      rw [he]
      exact ih u (p' ++ u) rfl

/-! ### Characterizing the validator -/

theorem is_sanitized_iff (c : OptionsForCheck) (x : List Char) :
    is_sanitized_with_options c x = true ↔
      (x = [] ∨
        ((c.truncate = true → byteLen x ≤ 255) ∧
         is_reserved x = false ∧
         (c.windows = true → is_windows_reserved x = false) ∧
         (c.windows = true → has_windows_trailing x = false) ∧
         x.any (fun ch => is_illegal_char ch || is_control_char ch) = false)) := by
  rw [is_sanitized_with_options]
  by_cases h0 : x.isEmpty = true
  · rw [if_pos h0]
    constructor
    · intro _
      exact Or.inl (by simpa using h0)
    · intro _
      rfl
  · rw [if_neg h0]
    have hne : x ≠ [] := by simpa using h0
    by_cases h1 : c.truncate = true ∧ 255 < byteLen x
    · rw [if_pos h1]
      constructor
      · intro hf; simp at hf
      · rintro (rfl | ⟨ht, -, -, -, -⟩)
        · exact absurd rfl hne
        · have hle := ht h1.1
          have hgt := h1.2
          omega
    · rw [if_neg h1]
      by_cases h2 : is_reserved x = true
      · rw [if_pos h2]
        constructor
        · intro hf; simp at hf
        · rintro (rfl | ⟨-, hres, -, -, -⟩)
          · exact absurd rfl hne
          · rw [h2] at hres; cases hres
      · rw [if_neg h2]
        by_cases h3 : c.windows = true ∧ is_windows_reserved x = true
        · rw [if_pos h3]
          constructor
          · intro hf; simp at hf
          · rintro (rfl | ⟨-, -, hwr, -, -⟩)
            · exact absurd rfl hne
            · rw [hwr h3.1] at h3
              cases h3.2
        · rw [if_neg h3]
          by_cases h4 : c.windows = true ∧ has_windows_trailing x = true
          · rw [if_pos h4]
            constructor
            · intro hf; simp at hf
            · rintro (rfl | ⟨-, -, -, hwt, -⟩)
              · exact absurd rfl hne
              · rw [hwt h4.1] at h4
                cases h4.2
          · rw [if_neg h4]
            by_cases h5 : x.any (fun ch => is_illegal_char ch || is_control_char ch) = true
            · rw [if_pos h5]
              constructor
              · intro hf; simp at hf
              · rintro (rfl | ⟨-, -, -, -, hbad⟩)
                · exact absurd rfl hne
                · rw [h5] at hbad; cases hbad
            · rw [if_neg h5]
              constructor
              · intro _
                right
                refine ⟨?_, ?_, ?_, ?_, ?_⟩
                · intro ht
                  by_contra hgt
                  exact h1 ⟨ht, by omega⟩
                · cases hr : is_reserved x
                  · rfl
                  · exact absurd hr h2
                · intro hw
                  cases hr : is_windows_reserved x
                  · rfl
                  · exact absurd ⟨hw, hr⟩ h3
                · intro hw
                  cases hr : has_windows_trailing x
                  · rfl
                  · exact absurd ⟨hw, hr⟩ h4
                · cases hr : x.any (fun ch => is_illegal_char ch || is_control_char ch)
                  · rfl
                  · exact absurd hr h5
              · intro _
                rfl

/-! ### Sanitizer structure lemmas -/

theorem san_nil (o : Options) : sanitize_with_options o [] = [] := by
  rcases o with ⟨w, t, r⟩
  cases w <;> cases t <;> rfl

theorem san_no_trunc (w : Bool) (r x : List Char) :
    sanitize_with_options ⟨w, false, r⟩ x = preTruncate ⟨w, false, r⟩ x := by
  simp only [sanitize_with_options]
  rw [if_neg]
  rintro ⟨h, -⟩
  simp at h

theorem replace_nil_eq_filter (x : List Char) :
    replace_illegal_or_control_char x [] =
      x.filter (fun c => !(is_illegal_char c || is_control_char c)) := by
  rw [replace_eq_spec, spec_nil_eq_filter]

theorem mem_filter_good (x : List Char) (c : Char)
    (hc : c ∈ x.filter (fun c => !(is_illegal_char c || is_control_char c))) :
    (is_illegal_char c || is_control_char c) = false := by
  have := List.of_mem_filter hc
  simpa using this

theorem any_eq_false_of_all_good (s : List Char)
    (h : ∀ c ∈ s, (is_illegal_char c || is_control_char c) = false) :
    s.any (fun ch => is_illegal_char ch || is_control_char ch) = false := by
  cases ha : s.any (fun ch => is_illegal_char ch || is_control_char ch)
  · rfl
  · obtain ⟨c, hc, hbad⟩ := List.any_eq_true.mp ha
    rw [h c hc] at hbad
    cases hbad

theorem is_reserved_getLast (s : List Char) (h : is_reserved s = true) :
    s.getLast? = some '.' := by
  rw [is_reserved] at h
  by_cases he : s.isEmpty = true
  · rw [if_pos he] at h; cases h
  · rw [if_neg he] at h
    have hne : s ≠ [] := by simpa using he
    have hmem := List.getLast_mem hne
    have hdot := List.all_eq_true.mp h _ hmem
    rw [List.getLast?_eq_getLast _ hne]
    simp at hdot
    rw [hdot]

theorem trimEnd_not_reserved (s : List Char) :
    is_reserved (trimEndDotSpace s) = false := by
  cases hr : is_reserved (trimEndDotSpace s)
  · rfl
  · have h1 := is_reserved_getLast _ hr
    have h2 := trimEnd_not_trailing s
    unfold has_windows_trailing at h2
    rw [h1] at h2
    exact absurd h2 (by decide)

theorem byteLen_rwt_nil_le (s : List Char) :
    byteLen (replace_windows_trailing s []) ≤ byteLen s := by
  rw [rwt_nil]
  exact byteLen_trimEnd_le s

theorem byteLen_preTruncate_nil_le (w t : Bool) (x : List Char) :
    byteLen (preTruncate ⟨w, t, []⟩ x) ≤ byteLen x := by
  have h1 := byteLen_filter_le (fun c => !(is_illegal_char c || is_control_char c)) x
  simp only [preTruncate, replace_nil_eq_filter]
  revert h1
  generalize x.filter (fun c => !(is_illegal_char c || is_control_char c)) = y1
  intro h1
  have h2 : byteLen (if is_reserved y1 = true then ([] : List Char) else y1) ≤ byteLen x := by
    split
    · simp [byteLen_nil]
    · exact h1
  revert h2
  generalize (if is_reserved y1 = true then ([] : List Char) else y1) = y2
  intro h2
  split
  · split
    · simp [byteLen_nil]
    · exact Nat.le_trans (byteLen_rwt_nil_le y2) h2
  · exact h2

theorem san_id_of_sanitized (x r : List Char) (w t : Bool)
    (h : is_sanitized_with_options ⟨w, t⟩ x = true) :
    sanitize_with_options ⟨w, t, r⟩ x = x := by
  rcases (is_sanitized_iff ⟨w, t⟩ x).mp h with rfl | ⟨ht, hres, hwr, hwt, hbad⟩
  · exact san_nil _
  · have hall : ∀ c ∈ x, (is_illegal_char c || is_control_char c) = false := by
      intro c hc
      cases hb : is_illegal_char c || is_control_char c
      · rfl
      · have hany : x.any (fun ch => is_illegal_char ch || is_control_char ch) = true :=
          List.any_eq_true.mpr ⟨c, hc, hb⟩
        rw [hany] at hbad
        cases hbad
    have h1 : replace_illegal_or_control_char x r = x := by
      rw [replace_eq_spec]
      exact spec_eq_self x r hall
    have hpre : preTruncate ⟨w, t, r⟩ x = x := by
      simp only [preTruncate, h1, hres]
      cases w
      · simp
      · have htr : replace_windows_trailing x r = x := by
          simp only [replace_windows_trailing, trimEnd_eq_of_not_trailing x (hwt rfl)]
          simp
        simp [htr, hwr rfl]
    simp only [sanitize_with_options, hpre]
    rw [if_neg]
    rintro ⟨htt, hgt⟩
    have := ht htt
    omega

theorem sanitized_of_san_id (x : List Char) (w t : Bool)
    (hsan : sanitize_with_options ⟨w, t, []⟩ x = x) :
    is_sanitized_with_options ⟨w, t⟩ x = true := by
  by_cases hx : x = []
  · subst hx; rfl
  have hxpos : 0 < byteLen x := byteLen_pos x hx
  have hple := byteLen_preTruncate_nil_le w t x
  have hpre : preTruncate ⟨w, t, []⟩ x = x ∧ (t = true → byteLen x ≤ 255) := by
    simp only [sanitize_with_options] at hsan
    by_cases hc : t = true ∧ 255 < byteLen (preTruncate ⟨w, t, []⟩ x)
    · rw [if_pos hc] at hsan
      have hb : byteLen (takeBytes (preTruncate ⟨w, t, []⟩ x)
            (floorBoundary (preTruncate ⟨w, t, []⟩ x) 255)) =
          floorBoundary (preTruncate ⟨w, t, []⟩ x) 255 :=
        (takeBytes_spec _ _ (floorBoundary_boundary (preTruncate ⟨w, t, []⟩ x) 255)).1
      have hfb : floorBoundary (preTruncate ⟨w, t, []⟩ x) 255 ≤ 255 :=
        floorBoundary_le (preTruncate ⟨w, t, []⟩ x) 255
      rw [hsan] at hb
      have hgt : 255 < byteLen (preTruncate ⟨w, t, []⟩ x) := hc.2
      exfalso
      omega
    · rw [if_neg hc] at hsan
      refine ⟨hsan, ?_⟩
      intro htt
      by_contra hgt
      apply hc
      refine ⟨htt, ?_⟩
      rw [hsan]
      omega
  obtain ⟨hpx, htle⟩ := hpre
  have hy1le := byteLen_filter_le (fun c => !(is_illegal_char c || is_control_char c)) x
  simp only [preTruncate, replace_nil_eq_filter] at hpx
  cases w with
  | false =>
    rw [if_neg (by simp)] at hpx
    by_cases hr : is_reserved
        (x.filter (fun c => !(is_illegal_char c || is_control_char c))) = true
    · rw [if_pos hr] at hpx
      exact absurd hpx.symm hx
    · rw [if_neg hr] at hpx
      have hallgood := List.filter_eq_self.mp hpx
      apply (is_sanitized_iff ⟨false, t⟩ x).mpr
      right
      refine ⟨htle, ?_, ?_, ?_, ?_⟩
      · rw [hpx] at hr
        cases hb : is_reserved x
        · rfl
        · exact absurd hb hr
      · intro hcon; simp at hcon
      · intro hcon; simp at hcon
      · apply any_eq_false_of_all_good
        intro c hc
        have := hallgood c hc
        simpa using this
  | true =>
    rw [if_pos (by simp)] at hpx
    rw [rwt_nil] at hpx
    by_cases hwrb : is_windows_reserved (trimEndDotSpace
        (if is_reserved (x.filter (fun c => !(is_illegal_char c || is_control_char c))) = true
          then ([] : List Char)
          else x.filter (fun c => !(is_illegal_char c || is_control_char c)))) = true
    · rw [if_pos hwrb] at hpx
      exact absurd hpx.symm hx
    · rw [if_neg hwrb] at hpx
      by_cases hr : is_reserved
          (x.filter (fun c => !(is_illegal_char c || is_control_char c))) = true
      · rw [if_pos hr] at hpx
        have : trimEndDotSpace ([] : List Char) = [] := rfl
        rw [this] at hpx
        exact absurd hpx.symm hx
      · rw [if_neg hr] at hpx hwrb
        have e1 : byteLen (trimEndDotSpace
            (x.filter (fun c => !(is_illegal_char c || is_control_char c)))) = byteLen x := by
          rw [hpx]
        have e2 := byteLen_trimEnd_le
          (x.filter (fun c => !(is_illegal_char c || is_control_char c)))
        have e3 : byteLen (x.filter (fun c => !(is_illegal_char c || is_control_char c)))
            = byteLen x := by omega
        have hfil := filter_eq_of_byteLen
          (fun c => !(is_illegal_char c || is_control_char c)) x e3
        rw [hfil] at hpx hwrb hr
        have hallgood := List.filter_eq_self.mp hfil
        have htrail : has_windows_trailing x = false := by
          cases hht : has_windows_trailing x
          · rfl
          · have := byteLen_trimEnd_lt x hht
            rw [hpx] at this
            omega
        apply (is_sanitized_iff ⟨true, t⟩ x).mpr
        right
        refine ⟨htle, ?_, ?_, ?_, ?_⟩
        · cases hb : is_reserved x
          · rfl
          · exact absurd hb hr
        · intro _
          rw [hpx] at hwrb
          cases hb : is_windows_reserved x
          · rfl
          · exact absurd hb hwrb
        · intro _
          exact htrail
        · apply any_eq_false_of_all_good
          intro c hc
          have := hallgood c hc
          simpa using this

theorem san_output_sanitized (x : List Char) (w : Bool) :
    is_sanitized_with_options ⟨w, false⟩ (sanitize_with_options ⟨w, false, []⟩ x) = true := by
  rw [san_no_trunc]
  have hgood1 : ∀ c ∈ x.filter (fun c => !(is_illegal_char c || is_control_char c)),
      (is_illegal_char c || is_control_char c) = false := fun c hc => mem_filter_good x c hc
  simp only [preTruncate, replace_nil_eq_filter]
  by_cases hr : is_reserved
      (x.filter (fun c => !(is_illegal_char c || is_control_char c))) = true
  · rw [if_pos hr]
    cases w
    · rw [if_neg (by simp)]
      rfl
    · rw [if_pos (by simp)]
      rfl
  · rw [if_neg hr]
    cases w
    · rw [if_neg (by simp)]
      apply (is_sanitized_iff _ _).mpr
      by_cases hy : x.filter (fun c => !(is_illegal_char c || is_control_char c)) = []
      · exact Or.inl hy
      · right
        refine ⟨?_, ?_, ?_, ?_, ?_⟩
        · intro hcon; simp at hcon
        · cases hb : is_reserved (x.filter (fun c => !(is_illegal_char c || is_control_char c)))
          · rfl
          · exact absurd hb hr
        · intro hcon; simp at hcon
        · intro hcon; simp at hcon
        · exact any_eq_false_of_all_good _ hgood1
    · rw [if_pos (by simp)]
      by_cases hwrb : is_windows_reserved (replace_windows_trailing
          (x.filter (fun c => !(is_illegal_char c || is_control_char c))) []) = true
      · rw [if_pos hwrb]
        rfl
      · rw [if_neg hwrb]
        rw [rwt_nil] at hwrb ⊢
        apply (is_sanitized_iff _ _).mpr
        by_cases hte : trimEndDotSpace
            (x.filter (fun c => !(is_illegal_char c || is_control_char c))) = []
        · exact Or.inl hte
        · right
          obtain ⟨u, hu, -⟩ := trimEnd_spec
            (x.filter (fun c => !(is_illegal_char c || is_control_char c)))
          refine ⟨?_, ?_, ?_, ?_, ?_⟩
          · intro hcon; simp at hcon
          · exact trimEnd_not_reserved _
          · intro _
            cases hb : is_windows_reserved (trimEndDotSpace
                (x.filter (fun c => !(is_illegal_char c || is_control_char c))))
            · rfl
            · exact absurd hb hwrb
          · intro _
            exact trimEnd_not_trailing _
          · apply any_eq_false_of_all_good
            intro c hc
            apply hgood1
            rw [← hu]
            exact List.mem_append_left u hc

theorem san_idem (x : List Char) (w : Bool) :
    sanitize_with_options ⟨w, false, []⟩ (sanitize_with_options ⟨w, false, []⟩ x) =
      sanitize_with_options ⟨w, false, []⟩ x :=
  san_id_of_sanitized _ [] w false (san_output_sanitized x w)

theorem san_windows_reserved (x r : List Char)
    (h : is_windows_reserved (replace_windows_trailing
      (if is_reserved (replace_illegal_or_control_char x r) = true then r
       else replace_illegal_or_control_char x r) r) = true) :
    sanitize_with_options ⟨true, false, r⟩ x = r := by
  rw [san_no_trunc]
  simp only [preTruncate]
  rw [if_pos (by simp)]
  rw [if_pos h]

theorem san_all_dots (r x : List Char) (hne : x ≠ []) (hdots : ∀ c ∈ x, c = '.') :
    sanitize_with_options ⟨false, false, r⟩ x = r := by
  rw [san_no_trunc]
  have h1 : replace_illegal_or_control_char x r = x := by
    rw [replace_eq_spec]
    apply spec_eq_self
    intro c hc
    rw [hdots c hc]
    rfl
  have h2 : is_reserved x = true := by
    rw [is_reserved, if_neg (by simpa using hne)]
    apply List.all_eq_true.mpr
    intro c hc
    simp [hdots c hc]
  simp only [preTruncate, h1, h2]
  simp

/-! ### Claims -/

/-- Claim C1, corrected.  The claim as frozen quantifies over every
replacement text; it fails (see the counterexample: with replacement `"?"`
the input `"?"` is mapped to itself by `sanitize_with_options` yet is not
sanitized).  Amended: the direction "sanitized implies fixed point" holds
for every replacement text, and the full equivalence holds when the
replacement text is empty: for every `x` and every pair of configurations
sharing the same windows/truncate flags,
`is_sanitized_with_options x = true ↔ sanitize_with_options x = x`. -/
theorem claim_C1 :
    (∀ (x r : List Char) (w t : Bool),
        is_sanitized_with_options ⟨w, t⟩ x = true →
        sanitize_with_options ⟨w, t, r⟩ x = x) ∧
    (∀ (x : List Char) (w t : Bool),
        is_sanitized_with_options ⟨w, t⟩ x = true ↔
          sanitize_with_options ⟨w, t, []⟩ x = x) :=
  ⟨fun x r w t h => san_id_of_sanitized x r w t h,
   fun x w t =>
     ⟨fun h => san_id_of_sanitized x [] w t h, fun h => sanitized_of_san_id x w t h⟩⟩

/-- Witness for C1: a concrete sanitized string is a fixed point of
`sanitize_with_options` even with a non-empty replacement. -/
theorem claim_C1_witness :
    sanitize_with_options ⟨true, true, ['x']⟩ "hw".toList = "hw".toList :=
  claim_C1.1 "hw".toList ['x'] true true (by decide)

/-- Counterexample to C1 as frozen: with replacement text `"?"` (allowed by
the claim, which carries "any replacement text"), the input `"?"` is its own
sanitize image, yet `is_sanitized_with_options` rejects it. -/
theorem claim_C1_cex :
    sanitize_with_options ⟨false, false, ['?']⟩ ['?'] = ['?'] ∧
    is_sanitized_with_options ⟨false, false⟩ ['?'] = false := by
  decide

/-- Claim C2, corrected.  As frozen ("for every configuration") it is
false: a replacement text ending in `'.'` re-introduces a Windows trailing
dot, and even with the empty replacement, truncation can cut the string to
an all-dots name that `is_sanitized_with_options` rejects (see the
counterexample).  Amended: for every input and windows flag, with the empty
replacement and truncation disabled, the output of `sanitize_with_options`
satisfies `is_sanitized_with_options` under the matching flags. -/
theorem claim_C2 (x : List Char) (w : Bool) :
    is_sanitized_with_options ⟨w, false⟩ (sanitize_with_options ⟨w, false, []⟩ x) = true :=
  san_output_sanitized x w

/-- Counterexample to C2 as frozen, in both directions the amendment
restricts: with windows mode and replacement `"a."`, sanitizing `"b."`
yields `"ba."`, which still has a trailing dot; and with the empty
replacement but truncation on, sanitizing 255 dots followed by `'a'`
truncates to an all-dots name.  Both outputs fail `is_sanitized_with_options`
under the matching flags. -/
theorem claim_C2_cex :
    is_sanitized_with_options ⟨true, false⟩
      (sanitize_with_options ⟨true, false, ['a', '.']⟩ ['b', '.']) = false ∧
    is_sanitized_with_options ⟨false, true⟩
      (sanitize_with_options ⟨false, true, []⟩ (List.replicate 255 '.' ++ ['a'])) = false := by
  decide

/-- Claim C3, corrected.  As frozen ("every configuration ... any
replacement text") idempotence fails: with windows mode and replacement
`"a."`, sanitizing `"b."` gives `"ba."` and sanitizing again gives
`"baa."`; and even with the empty replacement, truncation can cut
255 dots + `'a'` to 255 dots, which a second pass collapses to `""`
(see the counterexample).  Amended: `sanitize_with_options` is idempotent
for every input and windows flag when the replacement is empty and
truncation is disabled. -/
theorem claim_C3 (x : List Char) (w : Bool) :
    sanitize_with_options ⟨w, false, []⟩ (sanitize_with_options ⟨w, false, []⟩ x) =
      sanitize_with_options ⟨w, false, []⟩ x :=
  san_idem x w

/-- Counterexample to C3 as frozen: both a non-empty replacement under
windows mode and the empty replacement under truncation break idempotence. -/
theorem claim_C3_cex :
    ¬(sanitize_with_options ⟨true, false, ['a', '.']⟩
        (sanitize_with_options ⟨true, false, ['a', '.']⟩ ['b', '.']) =
      sanitize_with_options ⟨true, false, ['a', '.']⟩ ['b', '.']) ∧
    ¬(sanitize_with_options ⟨false, true, []⟩
        (sanitize_with_options ⟨false, true, []⟩ (List.replicate 255 '.' ++ ['a'])) =
      sanitize_with_options ⟨false, true, []⟩ (List.replicate 255 '.' ++ ['a'])) := by
  decide

/-- Claim C4: when truncation is enabled, the output's UTF-8 byte length is
at most 255; and whenever the pre-truncation string exceeds 255 bytes, the
output is a prefix (a complete sequence of whole code points, so no code
point is ever split) of the pre-truncation string, and it is the longest
such prefix with byte length at most 255. -/
theorem claim_C4 (x : List Char) (o : Options) (ht : o.truncate = true) :
    byteLen (sanitize_with_options o x) ≤ 255 ∧
    (255 < byteLen (preTruncate o x) →
      (∃ u, sanitize_with_options o x ++ u = preTruncate o x) ∧
      ∀ p u, p ++ u = preTruncate o x → byteLen p ≤ 255 →
        byteLen p ≤ byteLen (sanitize_with_options o x)) := by
  simp only [sanitize_with_options]
  by_cases hc : o.truncate = true ∧ 255 < byteLen (preTruncate o x)
  · rw [if_pos hc]
    have hbd := floorBoundary_boundary (preTruncate o x) 255
    obtain ⟨hlen, u, hu⟩ := takeBytes_spec _ _ hbd
    have hfb := floorBoundary_le (preTruncate o x) 255
    refine ⟨by omega, fun _ => ⟨⟨u, hu⟩, ?_⟩⟩
    intro p v hpv hple
    have hbp := boundary_of_append p v _ hpv
    have hge := floorBoundary_ge (preTruncate o x) 255 (byteLen p) hple hbp
    omega
  · rw [if_neg hc]
    have hle : byteLen (preTruncate o x) ≤ 255 := by
      by_contra hgt
      exact hc ⟨ht, by omega⟩
    exact ⟨hle, fun hgt => absurd hgt (by omega)⟩

/-- Witness for C4 at a concrete configuration with truncation enabled. -/
theorem claim_C4_witness :
    byteLen (sanitize_with_options ⟨false, true, []⟩ (List.replicate 256 'a')) ≤ 255 :=
  (claim_C4 (List.replicate 256 'a') ⟨false, true, []⟩ rfl).1

/-- Claim C5: the character filter agrees with the per-character
specification (each illegal or control character independently becomes one
verbatim copy of the replacement text, so a run of `n` such characters
yields `n` consecutive copies and the replacement is never itself
filtered), and an input without illegal or control characters is returned
unmodified. -/
theorem claim_C5 (name repl : List Char) :
    replace_illegal_or_control_char name repl =
      replaceIllegalOrControlCharSpec name repl ∧
    ((∀ c ∈ name, (is_illegal_char c || is_control_char c) = false) →
      replace_illegal_or_control_char name repl = name) :=
  ⟨replace_eq_spec name repl,
   fun h => (replace_eq_spec name repl).trans (spec_eq_self name repl h)⟩

/-- Witness for C5: a clean string passes through the filter unchanged. -/
theorem claim_C5_witness :
    replace_illegal_or_control_char ['h', 'i'] ['x'] = ['h', 'i'] :=
  (claim_C5 ['h', 'i'] ['x']).2 (by decide)

/-- Claim C6: in windows mode the reserved-device-name check runs on the
string produced by the trailing trim, so whenever that trimmed string is a
reserved name, the result before truncation is exactly the replacement
text; in particular with the empty replacement `"CON."` and `"LPT9.asdf"`
both sanitize to `""`. -/
theorem claim_C6 :
    (∀ x r : List Char,
        is_windows_reserved (replace_windows_trailing
          (if is_reserved (replace_illegal_or_control_char x r) = true then r
           else replace_illegal_or_control_char x r) r) = true →
        sanitize_with_options ⟨true, false, r⟩ x = r) ∧
    sanitize_with_options ⟨true, true, []⟩ "CON.".toList = [] ∧
    sanitize_with_options ⟨true, true, []⟩ "LPT9.asdf".toList = [] :=
  ⟨fun x r h => san_windows_reserved x r h, by decide, by decide⟩

/-- Witness for C6: `"CON."` trims to the reserved stem `"CON"`, so the
general statement applies to it. -/
theorem claim_C6_witness :
    sanitize_with_options ⟨true, false, []⟩ "CON.".toList = [] :=
  claim_C6.1 "CON.".toList [] (by decide)

/-- Claim C7: a non-empty all-dots name is replaced by exactly one copy of
the replacement text (not one per character); in particular, with the empty
replacement and windows/truncate disabled, `"."`, `".."` and `"..."` all
sanitize to `""`. -/
theorem claim_C7 :
    (∀ r x : List Char, x ≠ [] → (∀ c ∈ x, c = '.') →
        sanitize_with_options ⟨false, false, r⟩ x = r) ∧
    sanitize_with_options ⟨false, false, []⟩ ['.'] = [] ∧
    sanitize_with_options ⟨false, false, []⟩ ['.', '.'] = [] ∧
    sanitize_with_options ⟨false, false, []⟩ ['.', '.', '.'] = [] :=
  ⟨fun r x hne hdots => san_all_dots r x hne hdots, by decide, by decide, by decide⟩

/-- Witness for C7: the all-dots input `".."` becomes one copy of the
replacement `"r"`. -/
theorem claim_C7_witness :
    sanitize_with_options ⟨false, false, ['r']⟩ ['.', '.'] = ['r'] :=
  claim_C7.1 ['r'] ['.', '.'] (by decide) (by decide)

/-- Claim C8: the backwards code-point-boundary search of the truncation
step terminates at a valid boundary index no larger than its starting
index, and `sanitize_with_options` and `is_sanitized_with_options` are
total functions of their inputs (they are Lean `def`s, so they provably
produce a value on every input and every configuration). -/
theorem claim_C8 (s : List Char) (b : Nat) (o : Options) (c : OptionsForCheck)
    (x : List Char) :
    floorBoundary s b ≤ b ∧ isCharBoundary s (floorBoundary s b) = true ∧
    (∃ y, sanitize_with_options o x = y) ∧
    (∃ bv, is_sanitized_with_options c x = bv) :=
  ⟨floorBoundary_le s b, floorBoundary_boundary s b, ⟨_, rfl⟩, ⟨_, rfl⟩⟩

/-- Claim C9: for every configuration, sanitizing the empty string yields
the empty string. -/
theorem claim_C9 (o : Options) : sanitize_with_options o [] = [] :=
  san_nil o

/-- Claim C10: `is_sanitized_with_options` is monotone in its flags —
turning the windows or truncate flag off (while keeping the other equal or
also turning it off) can never make a sanitized string unsanitized. -/
theorem claim_C10 (x : List Char) (w t w' t' : Bool)
    (hw : w' = true → w = true) (ht : t' = true → t = true)
    (h : is_sanitized_with_options ⟨w, t⟩ x = true) :
    is_sanitized_with_options ⟨w', t'⟩ x = true := by
  rcases (is_sanitized_iff ⟨w, t⟩ x).mp h with rfl | ⟨h1, h2, h3, h4, h5⟩
  · exact (is_sanitized_iff ⟨w', t'⟩ []).mpr (Or.inl rfl)
  · exact (is_sanitized_iff ⟨w', t'⟩ x).mpr (Or.inr ⟨fun htt => h1 (ht htt), h2,
      fun hww => h3 (hw hww), fun hww => h4 (hw hww), h5⟩)

/-- Witness for C10: `"hw"` is sanitized under full checks, hence also with
both flags turned off. -/
theorem claim_C10_witness :
    is_sanitized_with_options ⟨false, false⟩ ['h', 'w'] = true :=
  claim_C10 ['h', 'w'] true true false false (by decide) (by decide) (by decide)

end SanitizeFilename
